import Mathlib

/-!
Verification of the buffer-cache and inode layer of a Pintos-style filesystem
(src/filesys/cache.c and src/filesys/inode.c), via a shallow embedding.

Machine integers are modelled as `Nat`/`Int`; sector contents are modelled at
the granularity the verified properties need: a whole sector payload is an
abstract value (`Nat`), and sectors holding indirect / double-indirect index
records are modelled through an interpretation map (`Disk.ind`).  C arrays are
modelled as total functions `Nat → Nat`, matching unchecked C indexing on the
in-bounds executions the theorems quantify over.
-/

namespace Pintos

/-- BLOCK_SECTOR_SIZE from devices/block.h. -/
def BLOCK_SECTOR_SIZE : Nat := 512

/-- DIRECT_BLOCKS from inode.c. -/
def DIRECT_BLOCKS : Nat := 10

/-- INDIRECT_BLOCKS from inode.c. -/
def INDIRECT_BLOCKS : Nat := 125

/-- DBL_INDIRECT_BLOCKS from inode.c. -/
def DBL_INDIRECT_BLOCKS : Nat := 125

/-- TOTAL_BLOCKS from inode.c. -/
def TOTAL_BLOCKS : Nat := 15760

/-- MAX_FILE_SIZE from inode.c (≈ 8 MB). -/
def MAX_FILE_SIZE : Nat := 8069120

/-- CACHE_SIZE from cache.c. -/
def CACHE_SIZE : Nat := 64

/-- INODE_MAGIC from inode.c. -/
def INODE_MAGIC : Nat := 0x494e4f44

/-- bytes_to_sectors from inode.c: `DIV_ROUND_UP (size, BLOCK_SECTOR_SIZE)`.
The C argument is a non-negative `off_t`; we model it as `Nat`. -/
def bytes_to_sectors (size : Nat) : Nat :=
  (size + BLOCK_SECTOR_SIZE - 1) / BLOCK_SECTOR_SIZE

/-- sector_allocation from inode.c.  Input: number of sectors; output: how
many direct, indirect, fully-used double-indirect children, and remaining
(trailing partially-used child) data sectors are required, plus the success
flag (`false` when sectors are left over, i.e. the file is too big).
The C routine returns the quadruple through out-parameters. -/
def sector_allocation (sectors : Nat) : Nat × Nat × Nat × Nat × Bool :=
  let direct := min sectors DIRECT_BLOCKS
  let s1 := sectors - min direct sectors
  let indirect := min s1 INDIRECT_BLOCKS
  let s2 := s1 - indirect
  let dbl := min (s2 / INDIRECT_BLOCKS) DBL_INDIRECT_BLOCKS
  let s3 := s2 - dbl * INDIRECT_BLOCKS
  let remain := s3 % INDIRECT_BLOCKS
  let s4 := s3 - remain
  (direct, indirect, dbl, remain, s4 == 0)

/-- C4: `sector_allocation` computes exactly the spec's peeling quadruple,
reports failure exactly when a nonzero sector count is left after peeling,
and succeeds for every sector count within the addressable range
`Nd + Ni + Nd2·Ni`. -/
theorem sector_allocation_peels (s : Nat) :
    (sector_allocation s =
      (min s DIRECT_BLOCKS,
       min (s - min s DIRECT_BLOCKS) INDIRECT_BLOCKS,
       min (((s - min s DIRECT_BLOCKS) -
              min (s - min s DIRECT_BLOCKS) INDIRECT_BLOCKS) / INDIRECT_BLOCKS)
           DBL_INDIRECT_BLOCKS,
       (((s - min s DIRECT_BLOCKS) -
           min (s - min s DIRECT_BLOCKS) INDIRECT_BLOCKS) -
         (min (((s - min s DIRECT_BLOCKS) -
                 min (s - min s DIRECT_BLOCKS) INDIRECT_BLOCKS) / INDIRECT_BLOCKS)
              DBL_INDIRECT_BLOCKS) * INDIRECT_BLOCKS) % INDIRECT_BLOCKS,
       decide ((((s - min s DIRECT_BLOCKS) -
           min (s - min s DIRECT_BLOCKS) INDIRECT_BLOCKS) -
         (min (((s - min s DIRECT_BLOCKS) -
                 min (s - min s DIRECT_BLOCKS) INDIRECT_BLOCKS) / INDIRECT_BLOCKS)
              DBL_INDIRECT_BLOCKS) * INDIRECT_BLOCKS) % INDIRECT_BLOCKS =
         (((s - min s DIRECT_BLOCKS) -
           min (s - min s DIRECT_BLOCKS) INDIRECT_BLOCKS) -
         (min (((s - min s DIRECT_BLOCKS) -
                 min (s - min s DIRECT_BLOCKS) INDIRECT_BLOCKS) / INDIRECT_BLOCKS)
              DBL_INDIRECT_BLOCKS) * INDIRECT_BLOCKS)))) ∧
    (s ≤ DIRECT_BLOCKS + INDIRECT_BLOCKS + DBL_INDIRECT_BLOCKS * INDIRECT_BLOCKS →
      (sector_allocation s).2.2.2.2 = true) := by
  constructor
  · simp only [sector_allocation, DIRECT_BLOCKS, INDIRECT_BLOCKS, DBL_INDIRECT_BLOCKS,
      Prod.mk.injEq]
    refine ⟨trivial, by omega, by omega, by omega, ?_⟩
    rw [Bool.eq_iff_iff]
    simp only [beq_iff_eq, decide_eq_true_eq]
    omega
  · intro hs
    simp only [sector_allocation, DIRECT_BLOCKS, INDIRECT_BLOCKS, DBL_INDIRECT_BLOCKS] at *
    simp only [Nat.beq_eq_true_eq]
    omega

/-- On-disk indirect block (`struct inode_indirect` from inode.c):
`{sector, parent, length, blocks[INDIRECT_BLOCKS]}`.  `struct
inode_dbl_indirect` has the identical layout with the array field named
`indirect`; both are modelled by this record, the array as a total
function (C indexing is unchecked). -/
structure IndRec where
  sector : Nat
  parent : Nat
  length : Int
  blocks : Nat → Nat

/-- An all-zero sector interpreted as an indirect record (what `calloc`
followed by a zero-fill write produces). -/
def zeroRec : IndRec := ⟨0, 0, 0, fun _ => 0⟩

/-- The device as seen through the cache by the inode layer: `ind s` is the
contents of sector `s` interpreted as an indirect / double-indirect record.
Inode-layer reads and writes go through the buffer cache in the source; the
cache is verified separately (cache.c section below), so here the
cache+device composite is modelled as one flat state. -/
structure Disk where
  ind : Nat → IndRec

/-- Trace of sector writes the inode layer issues through the cache
(`block_cache_write` / `block_cache_write_partial` calls). -/
inductive WEvent where
  | cacheWrite (sector : Nat)
deriving DecidableEq

/-- Free map (free-map.c is external to this layer): the list of free
sectors, in allocation order.  `free_map_allocate (1, ·)` hands out the
head; failure exactly when no free sector is left. -/
def free_map_allocate : List Nat → Option (Nat × List Nat)
  | [] => none
  | s :: rest => some (s, rest)

/-- free_map_release: sectors `[sector, sector + cnt)` become free again. -/
def free_map_release (fm : List Nat) (sector cnt : Nat) : List Nat :=
  fm ++ (List.range cnt).map (sector + ·)

/-- Loop body shared by alloc_direct_sectors / alloc_indirect_sectors in
inode.c: `while (count--) { if (free_map_allocate (1, &ptr[i])) { write
zeros through cache; i++; } }`.  Returns the free map, disk, array and
final `i`, plus the trace of cache writes. -/
def alloc_zero_loop (fm : List Nat) (d : Disk) (arr : Nat → Nat) (i : Nat) :
    Nat → List Nat × Disk × (Nat → Nat) × Nat × List WEvent
  | 0 => (fm, d, arr, i, [])
  | count + 1 =>
    match free_map_allocate fm with
    | some (s, fm1) =>
      let d1 : Disk := ⟨Function.update d.ind s zeroRec⟩
      let r := alloc_zero_loop fm1 d1 (Function.update arr i s) (i + 1) count
      (r.1, r.2.1, r.2.2.1, r.2.2.2.1, WEvent.cacheWrite s :: r.2.2.2.2)
    | none => alloc_zero_loop fm d arr i count

/-- alloc_direct_sectors from inode.c: allocate and zero-fill up to
`MIN (sectors, DIRECT_BLOCKS)` fresh sectors, storing their ids from
`arr[index]` on; returns 0 immediately when `sectors == 0`. -/
def alloc_direct_sectors (fm : List Nat) (d : Disk) (arr : Nat → Nat)
    (index sectors : Nat) : List Nat × Disk × (Nat → Nat) × Nat × List WEvent :=
  if sectors = 0 then (fm, d, arr, 0, [])
  else alloc_zero_loop fm d arr index (min sectors DIRECT_BLOCKS)

/-- alloc_indirect_sectors from inode.c: identical loop with the count
capped at `INDIRECT_BLOCKS`. -/
def alloc_indirect_sectors (fm : List Nat) (d : Disk) (arr : Nat → Nat)
    (index sectors : Nat) : List Nat × Disk × (Nat → Nat) × Nat × List WEvent :=
  if sectors = 0 then (fm, d, arr, 0, [])
  else alloc_zero_loop fm d arr index (min sectors INDIRECT_BLOCKS)

/-- Loop of alloc_double_indirect_sectors: each iteration callocs a fresh
indirect record, allocates its host sector (aborting the whole call with
result 0 on failure, keeping the effects made so far), populates its
`blocks` via alloc_indirect_sectors (`remaining` entries on the final
iteration when `remaining != 0`, else `INDIRECT_BLOCKS`), and writes the
record through the cache to the host sector. -/
def dbl_alloc_loop (fm : List Nat) (d : Disk) (arr : Nat → Nat) (i remaining : Nat) :
    Nat → List Nat × Disk × (Nat → Nat) × Nat × List WEvent
  | 0 => (fm, d, arr, i, [])
  | count + 1 =>
    match free_map_allocate fm with
    | none => (fm, d, arr, 0, [])
    | some (s, fm1) =>
      let inner := if count = 0 ∧ remaining ≠ 0 then remaining else INDIRECT_BLOCKS
      let ra := alloc_indirect_sectors fm1 d (fun _ => 0) 0 inner
      let d2 : Disk := ⟨Function.update ra.2.1.ind s { zeroRec with blocks := ra.2.2.1 }⟩
      let r := dbl_alloc_loop ra.1 d2 (Function.update arr i s) (i + 1) remaining count
      (r.1, r.2.1, r.2.2.1, r.2.2.2.1,
        ra.2.2.2.2 ++ [WEvent.cacheWrite s] ++ r.2.2.2.2)

/-- alloc_double_indirect_sectors from inode.c. -/
def alloc_double_indirect_sectors (fm : List Nat) (d : Disk) (arr : Nat → Nat)
    (index sectors remaining : Nat) :
    List Nat × Disk × (Nat → Nat) × Nat × List WEvent :=
  if sectors = 0 ∧ remaining = 0 then (fm, d, arr, 0, [])
  else
    let count0 := min sectors DBL_INDIRECT_BLOCKS
    let count := if remaining ≠ 0 then count0 + 1 else count0
    dbl_alloc_loop fm d arr index remaining count

/-- On-disk inode (`struct inode_disk` from inode.c).  The `blocks` array is
a total function; `unused` padding is not modelled. -/
structure InodeDisk where
  start : Nat
  blocks : Nat → Nat
  length : Int
  self : Nat
  indirect : Nat
  dbl_indirect : Nat
  indirect_used : Nat
  dbl_indirect_used : Nat
  magic : Nat

/-- In-memory inode (`struct inode` from inode.c).  The intrusive list elem
is modelled by membership in the open-inode list; the `ind_data` /
`dbl_indirect` fields are transient read buffers (scratch space for
indirect_block / dbl_indirect_block) and carry no retained state, so they
are not modelled. -/
structure Inode where
  sector : Nat
  open_cnt : Int
  removed : Bool
  deny_write_cnt : Int
  data : InodeDisk
  length : Int

/-- direct_block from inode.c: `node->data.blocks[block]`. -/
def direct_block (node : Inode) (blk : Nat) : Nat :=
  node.data.blocks blk

/-- indirect_block from inode.c: read the indirect block from
`node->data.indirect` through the cache and return `blocks[block]`. -/
def indirect_block (d : Disk) (node : Inode) (blk : Nat) : Nat :=
  (d.ind node.data.indirect).blocks blk

/-- dbl_indirect_block from inode.c: read the double-indirect block from
`node->data.dbl_indirect`, pick child `block / DBL_INDIRECT_BLOCKS`, read
it, and return its entry `block % INDIRECT_BLOCKS`. -/
def dbl_indirect_block (d : Disk) (node : Inode) (blk : Nat) : Nat :=
  let child := blk / DBL_INDIRECT_BLOCKS
  let child_index := blk % INDIRECT_BLOCKS
  let dbl := d.ind node.data.dbl_indirect
  (d.ind (dbl.blocks child)).blocks child_index

/-- extend_file from inode.c: recompute the old and new sector budgets and
allocate the difference in each region; `node->data.length` and
`node->length` are never assigned, and the returned sector `new_sector`
stays 0.  State threaded: inode, disk, free map, plus the cache-write
trace. -/
def extend_file (node : Inode) (d : Disk) (fm : List Nat) (sectors : Nat) :
    Int × Inode × Disk × List Nat × List WEvent :=
  let cur0 := (node.length / (BLOCK_SECTOR_SIZE : Int)).toNat
  let cur_sectors := if cur0 % BLOCK_SECTOR_SIZE ≠ 0 then cur0 + 1 else cur0
  let ob := sector_allocation cur_sectors
  let nb := sector_allocation sectors
  let old_direct := ob.1
  let old_dbl := ob.2.2.1
  let new_direct := nb.1
  let new_indirect := nb.2.1
  let new_dbl := nb.2.2.1
  let new_remaining := nb.2.2.2.1
  let st1 :=
    if new_direct > old_direct then
      let r := alloc_direct_sectors fm d node.data.blocks (old_direct + 1) new_direct
      ({ node with data := { node.data with blocks := r.2.2.1 } }, r.2.1, r.1, r.2.2.2.2)
    else (node, d, fm, ([] : List WEvent))
  let node1 := st1.1
  let d1 := st1.2.1
  let fm1 := st1.2.2.1
  let ev1 := st1.2.2.2
  let st2 :=
    if new_indirect > ob.2.1 then
      let rec0 := d1.ind node1.data.indirect
      let r := alloc_indirect_sectors fm1 d1 rec0.blocks (old_direct + 1) new_indirect
      let d2 : Disk :=
        ⟨Function.update r.2.1.ind node1.data.indirect { rec0 with blocks := r.2.2.1 }⟩
      (d2, r.1, r.2.2.2.2 ++ [WEvent.cacheWrite node1.data.indirect])
    else (d1, fm1, ([] : List WEvent))
  let d2 := st2.1
  let fm2 := st2.2.1
  let ev2 := st2.2.2
  let st3 :=
    if new_dbl > old_dbl then
      let rec0 := d2.ind node1.data.dbl_indirect
      let r := alloc_double_indirect_sectors fm2 d2 rec0.blocks old_dbl new_dbl new_remaining
      let d3 : Disk :=
        ⟨Function.update r.2.1.ind node1.data.dbl_indirect { rec0 with blocks := r.2.2.1 }⟩
      (d3, r.1, r.2.2.2.2 ++ [WEvent.cacheWrite node1.data.dbl_indirect])
    else (d2, fm2, ([] : List WEvent))
  (0, node1, st3.1, st3.2.1, ev1 ++ ev2 ++ st3.2.2)

/-- get_inode_block from inode.c.  For `pos` within the file, dispatch on
the block index to the direct / indirect / double-indirect region (falling
through to -1); past the end, reads return -1 and writes call extend_file.
The function carries the state extend_file can modify.  The source asserts
`pos < MAX_FILE_SIZE`; theorems quantify only over such `pos`. -/
def get_inode_block (node : Inode) (d : Disk) (fm : List Nat) (pos : Int)
    (read : Bool) : Int × Inode × Disk × List Nat × List WEvent :=
  let blk := (pos / (BLOCK_SECTOR_SIZE : Int)).toNat
  if pos < node.data.length then
    (if blk < DIRECT_BLOCKS then (direct_block node blk : Int)
     else if blk < DIRECT_BLOCKS + INDIRECT_BLOCKS then
       (indirect_block d node (blk - DIRECT_BLOCKS) : Int)
     else if blk < TOTAL_BLOCKS then
       (dbl_indirect_block d node (blk - (DIRECT_BLOCKS + INDIRECT_BLOCKS)) : Int)
     else -1, node, d, fm, [])
  else
    if read then (-1, node, d, fm, [])
    else extend_file node d fm blk

/-- Loop of inode_write_at from inode.c.  Each iteration looks the sector up
via get_inode_block (write mode: may call extend_file), computes
`chunk_size = min (size, min (inode_length - offset, sector space left))`,
breaks when it is non-positive, and otherwise issues a full or partial
cache write of the chunk and advances.  The C ternary minima are written
with `min`.  Returns the byte count and the threaded state and trace. -/
def write_loop (node : Inode) (d : Disk) (fm : List Nat)
    (size offset bytes_written : Int) (ev : List WEvent) :
    Int × Inode × Disk × List Nat × List WEvent :=
  if 0 < size then
    let g := get_inode_block node d fm offset false
    let sector_idx := g.1
    let node1 := g.2.1
    let d1 := g.2.2.1
    let fm1 := g.2.2.2.1
    let ev1 := ev ++ g.2.2.2.2
    let sector_ofs := offset % (BLOCK_SECTOR_SIZE : Int)
    let inode_left := node1.data.length - offset
    let sector_left := (BLOCK_SECTOR_SIZE : Int) - sector_ofs
    let min_left := min inode_left sector_left
    let chunk_size := min size min_left
    if hc : 0 < chunk_size then
      have hle : chunk_size ≤ size := min_le_left _ _
      write_loop node1 d1 fm1 (size - chunk_size) (offset + chunk_size)
        (bytes_written + chunk_size) (ev1 ++ [WEvent.cacheWrite sector_idx.toNat])
    else (bytes_written, node1, d1, fm1, ev1)
  else (bytes_written, node, d, fm, ev)
termination_by size.toNat
decreasing_by
  unfold_let chunk_size min_left sector_left inode_left node1 g at *
  omega

/-- inode_write_at from inode.c: returns 0 at once while
`deny_write_cnt != 0`, otherwise runs the chunk loop. -/
def inode_write_at (node : Inode) (d : Disk) (fm : List Nat)
    (size offset : Int) : Int × Inode × Disk × List Nat × List WEvent :=
  if node.deny_write_cnt ≠ 0 then (0, node, d, fm, [])
  else write_loop node d fm size offset 0 []

/-- inode_create from inode.c: compute the sector budget (failing early when
the file is too big), allocate the direct region, then the indirect block
(host sector plus entries) and the double-indirect structure, each branch
setting `success = false` on host allocation failure but not returning; the
on-disk inode is written only on success.  The `TODO: If not success, roll
back the writes` is left undone by the source: no released sectors on the
failure paths.  The write of the inode record itself appears in the trace. -/
def inode_create (d : Disk) (fm : List Nat) (sector length : Nat) :
    Bool × Disk × List Nat × List WEvent :=
  let sa := sector_allocation (bytes_to_sectors length)
  let direct := sa.1
  let indirect := sa.2.1
  let dbl_indirect := sa.2.2.1
  let remaining := sa.2.2.2.1
  if sa.2.2.2.2 = false then (false, d, fm, [])
  else
    let st1 :=
      if direct ≠ 0 then
        let r := alloc_direct_sectors fm d (fun _ => 0) 0 direct
        (r.1, r.2.1, r.2.2.2.2)
      else (fm, d, ([] : List WEvent))
    let fm1 := st1.1
    let d1 := st1.2.1
    let ev1 := st1.2.2
    let st2 :=
      if indirect ≠ 0 then
        match free_map_allocate fm1 with
        | none => (false, fm1, d1, ([] : List WEvent))
        | some (s, fma) =>
          let r := alloc_indirect_sectors fma d1 (fun _ => 0) 0 indirect
          let d2 : Disk := ⟨Function.update r.2.1.ind s { zeroRec with blocks := r.2.2.1 }⟩
          (true, r.1, d2, r.2.2.2.2 ++ [WEvent.cacheWrite s])
      else (true, fm1, d1, ([] : List WEvent))
    let ok2 := st2.1
    let fm2 := st2.2.1
    let d2 := st2.2.2.1
    let ev2 := st2.2.2.2
    let st3 :=
      if dbl_indirect ≠ 0 ∨ remaining ≠ 0 then
        match free_map_allocate fm2 with
        | none => (false, fm2, d2, ([] : List WEvent))
        | some (s, fma) =>
          let r := alloc_double_indirect_sectors fma d2 (fun _ => 0) 0 dbl_indirect remaining
          let d3 : Disk := ⟨Function.update r.2.1.ind s { zeroRec with blocks := r.2.2.1 }⟩
          (true, r.1, d3, r.2.2.2.2 ++ [WEvent.cacheWrite s])
      else (true, fm2, d2, ([] : List WEvent))
    let success := ok2 && st3.1
    let ev4 := if success then [WEvent.cacheWrite sector] else []
    (success, st3.2.2.1, st3.2.1, ev1 ++ ev2 ++ st3.2.2.2 ++ ev4)

/-- inode_close from inode.c: a null pointer is ignored; otherwise decrement
`open_cnt`, and on reaching zero remove the record from the open-inode list
and, when `removed` is set, release `sector` and the
`bytes_to_sectors (data.length)` sectors starting at the legacy
`data.start` field, then free the record.  Result: the record after the
call (`none` once freed or for a null argument), the open-inode list, and
the free map. -/
def inode_close (inode : Option Inode) (open_inodes : List Inode)
    (fm : List Nat) : Option Inode × List Inode × List Nat :=
  match inode with
  | none => (none, open_inodes, fm)
  | some node =>
    let node1 := { node with open_cnt := node.open_cnt - 1 }
    if node1.open_cnt = 0 then
      let open1 := open_inodes.eraseP (fun e => e.sector == node.sector)
      let fm1 :=
        if node.removed then
          free_map_release (free_map_release fm node.sector 1)
            node.data.start (bytes_to_sectors node.data.length.toNat)
        else fm
      (none, open1, fm1)
    else (some node1, open_inodes, fm)

/-- inode_remove from inode.c: only sets the `removed` flag. -/
def inode_remove (node : Inode) : Inode :=
  { node with removed := true }

/-- C3: the offset-to-sector mapping of get_inode_block for in-range
offsets (`pos` below both the file length and MAX_FILE_SIZE, as asserted
by the source): with `b = pos / S`, block index `b < Nd` resolves to
`direct[b]` of the on-disk inode; `Nd ≤ b < Nd + Ni` to entry `b - Nd` of
the indirect block read from `indirect`; and `Nd + Ni ≤ b` to entry
`(b - Nd - Ni) mod Ni` of the child indirect block at index
`(b - Nd - Ni) / Ni` of the double-indirect block (S = 512, Nd = 10,
Ni = 125). -/
theorem get_inode_block_offset_mapping (node : Inode) (d : Disk)
    (fm : List Nat) (pos : Nat) (hmax : pos < MAX_FILE_SIZE)
    (hlen : (pos : Int) < node.data.length) :
    (pos / BLOCK_SECTOR_SIZE < DIRECT_BLOCKS →
      (get_inode_block node d fm (pos : Int) true).1 =
        (node.data.blocks (pos / BLOCK_SECTOR_SIZE) : Int)) ∧
    (DIRECT_BLOCKS ≤ pos / BLOCK_SECTOR_SIZE →
     pos / BLOCK_SECTOR_SIZE < DIRECT_BLOCKS + INDIRECT_BLOCKS →
      (get_inode_block node d fm (pos : Int) true).1 =
        ((d.ind node.data.indirect).blocks
          (pos / BLOCK_SECTOR_SIZE - DIRECT_BLOCKS) : Int)) ∧
    (DIRECT_BLOCKS + INDIRECT_BLOCKS ≤ pos / BLOCK_SECTOR_SIZE →
      (get_inode_block node d fm (pos : Int) true).1 =
        ((d.ind ((d.ind node.data.dbl_indirect).blocks
            ((pos / BLOCK_SECTOR_SIZE - DIRECT_BLOCKS - INDIRECT_BLOCKS) /
              INDIRECT_BLOCKS))).blocks
          ((pos / BLOCK_SECTOR_SIZE - DIRECT_BLOCKS - INDIRECT_BLOCKS) %
            INDIRECT_BLOCKS) : Int)) := by
  have hblk : (((pos : Nat) : Int) / ((BLOCK_SECTOR_SIZE : Nat) : Int)).toNat =
      pos / BLOCK_SECTOR_SIZE := by
    simp only [BLOCK_SECTOR_SIZE]
    omega
  simp only [get_inode_block, hblk, if_pos hlen]
  simp only [MAX_FILE_SIZE, DIRECT_BLOCKS, INDIRECT_BLOCKS, DBL_INDIRECT_BLOCKS,
    TOTAL_BLOCKS, BLOCK_SECTOR_SIZE] at *
  refine ⟨fun h1 => ?_, fun h1 h2 => ?_, fun h1 => ?_⟩
  · rw [if_pos h1]
    rfl
  · rw [if_neg (by omega), if_pos h2]
    rfl
  · have h3 : pos / 512 < 15760 := by omega
    rw [if_neg (by omega), if_neg (by omega), if_pos h3]
    show (dbl_indirect_block d node (pos / 512 - (10 + 125)) : Int) = _
    unfold dbl_indirect_block
    have hsub : pos / 512 - (10 + 125) = pos / 512 - 10 - 125 := by omega
    rw [hsub]
    rfl

/-- An inode whose file spans into the double-indirect region. -/
def c3node : Inode :=
  { sector := 1, open_cnt := 1, removed := false, deny_write_cnt := 0,
    data := { start := 0, blocks := fun i => 1000 + i, length := 100000,
              self := 1, indirect := 7, dbl_indirect := 8, indirect_used := 1,
              dbl_indirect_used := 1, magic := INODE_MAGIC },
    length := 100000 }

/-- A disk whose sector `s`, read as an index record, has entry `i` equal
to `100 * s + i`. -/
def c3disk : Disk := ⟨fun s => ⟨s, 0, 0, fun i => 100 * s + i⟩⟩

/-- Witness for `get_inode_block_offset_mapping` at offset 69120
(block 135, the first double-indirect block). -/
theorem get_inode_block_offset_mapping_witness :
    ((69120 : Nat) < MAX_FILE_SIZE ∧ ((69120 : Nat) : Int) < c3node.data.length ∧
      DIRECT_BLOCKS + INDIRECT_BLOCKS ≤ 69120 / BLOCK_SECTOR_SIZE) ∧
    (get_inode_block c3node c3disk [] ((69120 : Nat) : Int) true).1 =
      ((c3disk.ind ((c3disk.ind c3node.data.dbl_indirect).blocks
          ((69120 / BLOCK_SECTOR_SIZE - DIRECT_BLOCKS - INDIRECT_BLOCKS) /
            INDIRECT_BLOCKS))).blocks
        ((69120 / BLOCK_SECTOR_SIZE - DIRECT_BLOCKS - INDIRECT_BLOCKS) %
          INDIRECT_BLOCKS) : Int) :=
  ⟨⟨by decide, by decide, by decide⟩,
   (get_inode_block_offset_mapping c3node c3disk [] 69120 (by decide)
     (by decide)).2.2 (by decide)⟩

/-- Witness for `sector_allocation_peels`: the maximal addressable sector
count (15760 = Nd + Ni + Nd2·Ni) is within range and succeeds. -/
theorem sector_allocation_peels_witness :
    15760 ≤ DIRECT_BLOCKS + INDIRECT_BLOCKS + DBL_INDIRECT_BLOCKS * INDIRECT_BLOCKS ∧
    (sector_allocation 15760).2.2.2.2 = true :=
  ⟨by decide, (sector_allocation_peels 15760).2 (by decide)⟩

/-- A disk on which every sector reads back as zeroes. -/
def emptyDisk : Disk := ⟨fun _ => zeroRec⟩

/-- An open inode over an empty file (length 0), writes allowed. -/
def c1node : Inode :=
  { sector := 5, open_cnt := 1, removed := false, deny_write_cnt := 0,
    data := { start := 0, blocks := fun _ => 0, length := 0, self := 5,
              indirect := 0, dbl_indirect := 0, indirect_used := 0,
              dbl_indirect_used := 0, magic := INODE_MAGIC },
    length := 0 }

/-- C1: failing input for file growth.  Writing 1 byte at offset 0 to an
open inode whose length is 0 (so `off + n = 1` exceeds the length) returns
0 bytes written and leaves the inode, the disk and the free map unchanged
with no cache write issued: no data sector is allocated, nothing is
zero-filled, and the stored length stays 0 < off + n.  The source's
extend_file allocates nothing here and never updates `length`; the loop's
`chunk_size` is clamped by the old length and the write terminates
immediately. -/
theorem inode_write_at_no_growth :
    inode_write_at c1node emptyDisk [] 1 0 = (0, c1node, emptyDisk, [], []) ∧
    c1node.data.length < 0 + 1 := by
  constructor
  · show write_loop c1node emptyDisk [] 1 0 0 [] = (0, c1node, emptyDisk, [], [])
    rw [write_loop]
    norm_num [get_inode_block, extend_file, sector_allocation, c1node,
      BLOCK_SECTOR_SIZE, DIRECT_BLOCKS, INDIRECT_BLOCKS, DBL_INDIRECT_BLOCKS,
      bytes_to_sectors]
  · norm_num [c1node]

/-- C9: while `deny_write_cnt > 0`, inode_write_at returns 0 immediately:
zero bytes written, and the inode (bytes, length, index tree), the disk,
and the free map are untouched, with no cache write issued. -/
theorem inode_write_at_denied (node : Inode) (d : Disk) (fm : List Nat)
    (size offset : Int) (h : 0 < node.deny_write_cnt) :
    inode_write_at node d fm size offset = (0, node, d, fm, []) := by
  unfold inode_write_at
  rw [if_pos (by omega)]

/-- An open inode with one write denier. -/
def c9node : Inode :=
  { c1node with deny_write_cnt := 1 }

/-- Witness for `inode_write_at_denied` at a concrete denied inode. -/
theorem inode_write_at_denied_witness :
    0 < c9node.deny_write_cnt ∧
    inode_write_at c9node emptyDisk [] 5 0 = (0, c9node, emptyDisk, [], []) :=
  ⟨by norm_num [c9node, c1node], inode_write_at_denied c9node emptyDisk [] 5 0
    (by norm_num [c9node, c1node])⟩

/-- A free map with exactly ten free sectors, 11 through 20. -/
def c8fm : List Nat := [11, 12, 13, 14, 15, 16, 17, 18, 19, 20]

/-- C8: failing input for create atomicity.  `inode_create` for an
11-sector file (10 direct + 1 indirect) against a free map holding exactly
10 sectors allocates all 10 direct sectors, then fails to allocate the
indirect block's host sector and returns failure — with the free map left
empty: none of the 10 sectors reserved during the call is released. -/
theorem inode_create_no_rollback :
    (inode_create emptyDisk c8fm 99 5632).1 = false ∧
    (inode_create emptyDisk c8fm 99 5632).2.2.1 = [] ∧
    c8fm.length = 10 := by decide

/-- An open, removed inode owning 11 data sectors (100..109 direct, 110 via
the indirect block hosted at sector 200), about to see its final close. -/
def c2node : Inode :=
  { sector := 50, open_cnt := 1, removed := true, deny_write_cnt := 0,
    data := { start := 0, blocks := fun i => 100 + i, length := 5632,
              self := 50, indirect := 200, dbl_indirect := 0,
              indirect_used := 1, dbl_indirect_used := 0,
              magic := INODE_MAGIC },
    length := 5632 }

/-- C2: failing input for final-close deallocation.  The final close of a
removed inode owning k = 11 data sectors and one indirect block releases
only the inode's host sector (50) and the 11 sectors counted from the
legacy `data.start` field (here 0..10) — 12 sectors, not the claimed
k + 2 = 13: neither the indirect block's host sector (200) nor any actual
data sector (e.g. 100) is released. -/
theorem inode_close_leaks_index_tree :
    (inode_close (some c2node) [c2node] []).2.2 =
      [50, 0, 1, 2, 3, 4, 5, 6, 7, 8, 9, 10] ∧
    c2node.data.indirect ∉ (inode_close (some c2node) [c2node] []).2.2 ∧
    c2node.data.blocks 0 ∉ (inode_close (some c2node) [c2node] []).2.2 := by
  decide

/-- C10: closing a null inode pointer is a total no-op: the open-inode
table and the free map are returned unchanged and no record is freed. -/
theorem inode_close_null (open_inodes : List Inode) (fm : List Nat) :
    inode_close none open_inodes fm = (none, open_inodes, fm) := rfl

/-! Buffer cache (cache.c).  A slot's sector payload is abstracted to one
value (`data : Nat`): every modelled operation moves whole sectors
(`memcpy` of `BLOCK_SECTOR_SIZE` bytes).  `entries` is the `lru` list,
most-recently-used first, and doubles as the hash-table contents
(`buffer_cache` and `lru` always hold the same set of slots, and
`entries_in_cache` is its length).  `stamp` and `clock` are ghost
instrumentation: `stamp` records the value of the global access counter at
a slot's last access and exists only to state the LRU property; no source
behaviour depends on it.  The `accessed` flag is subsumed by `stamp`.
Device traffic (`block_read` / `block_write` on the underlying device) is
returned as an explicit trace. -/

/-- A buffer-cache slot (`struct cache_entry` from cache.c). -/
structure CEntry where
  sector : Nat
  data : Nat
  dirty : Bool
  stamp : Nat
deriving DecidableEq

/-- A device operation issued by the cache. -/
inductive DevOp where
  | rd (sector : Nat)
  | wr (sector : Nat) (val : Nat)
deriving DecidableEq

/-- enum access_t from cache.h. -/
inductive Access where
  | rd
  | wr
deriving DecidableEq

/-- Cache state: the recency list (MRU first), the device contents, and the
ghost access clock. -/
structure CacheSt where
  entries : List CEntry
  device : Nat → Nat
  clock : Nat

/-- buffer_cache_init from cache.c: empty cache over a given device. -/
def buffer_cache_init (device : Nat → Nat) : CacheSt :=
  { entries := [], device := device, clock := 0 }

/-- cache_lookup from cache.c: find the slot holding `sector`. -/
def cache_lookup (st : CacheSt) (s : Nat) : Option CEntry :=
  st.entries.find? (fun e => e.sector == s)

/-- cache_is_full from cache.c: `entries_in_cache >= CACHE_SIZE`. -/
def cache_is_full (st : CacheSt) : Bool :=
  decide (CACHE_SIZE ≤ st.entries.length)

/-- cache_insert from cache.c: fill a fresh slot (from the caller's buffer
on WRITE, marking it dirty; from a device read on READ), push it to the
MRU position, and — when the cache was full — evict the LRU tail
(update_lru's `list_push_front` then `list_pop_back`), writing it to the
device first when dirty.  Returns the state, the data delivered to the
caller, and the device trace. -/
def cache_insert (st : CacheSt) (s : Nat) (buffer : Nat) (access : Access) :
    CacheSt × Nat × List DevOp :=
  let data := match access with
    | Access.wr => buffer
    | Access.rd => st.device s
  let ops0 : List DevOp := match access with
    | Access.wr => []
    | Access.rd => [DevOp.rd s]
  let e : CEntry := { sector := s, data := data,
                      dirty := access == Access.wr, stamp := st.clock }
  if cache_is_full st then
    let pushed := e :: st.entries
    let victim := pushed.getLast (List.cons_ne_nil e st.entries)
    let kept := pushed.dropLast
    if victim.dirty then
      ({ entries := kept,
         device := Function.update st.device victim.sector victim.data,
         clock := st.clock + 1 },
       data, ops0 ++ [DevOp.wr victim.sector victim.data])
    else
      ({ entries := kept, device := st.device, clock := st.clock + 1 },
       data, ops0)
  else
    ({ entries := e :: st.entries, device := st.device, clock := st.clock + 1 },
     data, ops0)

/-- cache_read from cache.c: on a hit, deliver the slot's data and move it
to the MRU position (refreshing the ghost stamp); on a miss, defer to
cache_insert with READ access. -/
def cache_read (st : CacheSt) (s : Nat) : CacheSt × Nat × List DevOp :=
  match cache_lookup st s with
  | some e =>
    ({ entries := { e with stamp := st.clock } ::
         st.entries.eraseP (fun x => x.sector == s),
       device := st.device, clock := st.clock + 1 },
     e.data, [])
  | none => cache_insert st s 0 Access.rd

/-- cache_write from cache.c: on a hit, overwrite the slot from the
caller's buffer, mark it dirty and move it to the MRU position; on a miss,
defer to cache_insert with WRITE access.  The device is never touched on
the hit path. -/
def cache_write (st : CacheSt) (s : Nat) (buffer : Nat) :
    CacheSt × List DevOp :=
  match cache_lookup st s with
  | some _ =>
    ({ entries := { sector := s, data := buffer, dirty := true,
                    stamp := st.clock } ::
         st.entries.eraseP (fun x => x.sector == s),
       device := st.device, clock := st.clock + 1 }, [])
  | none =>
    let r := cache_insert st s buffer Access.wr
    (r.1, r.2.2)

/-- Loop of flush_cache: pop slots from the front of the lru list and evict
each (cache_evict: device write when dirty, then drop the slot). -/
def flush_loop : List CEntry → (Nat → Nat) → (Nat → Nat) × List DevOp
  | [], dev => (dev, [])
  | e :: rest, dev =>
    if e.dirty then
      let r := flush_loop rest (Function.update dev e.sector e.data)
      (r.1, DevOp.wr e.sector e.data :: r.2)
    else flush_loop rest dev

/-- flush_cache from cache.c: evict every slot; the cache ends empty. -/
def flush_cache (st : CacheSt) : CacheSt × List DevOp :=
  let r := flush_loop st.entries st.device
  ({ entries := [], device := r.1, clock := st.clock }, r.2)

/-- The logical contents of sector `s`: the resident slot's data when
cached, the device contents otherwise (this is exactly what cache_read
delivers). -/
def cacheContents (st : CacheSt) (s : Nat) : Nat :=
  match cache_lookup st s with
  | some e => e.data
  | none => st.device s

/-- C7: a write miss below capacity fills a fresh MRU slot from the
caller's buffer, marks it dirty, and issues no device operation at all:
the device state is completely unchanged and the trace is empty. -/
theorem cache_write_miss_no_device (st : CacheSt) (s buffer : Nat)
    (hmiss : cache_lookup st s = none)
    (hcap : st.entries.length < CACHE_SIZE) :
    cache_write st s buffer =
      ({ entries := { sector := s, data := buffer, dirty := true,
                      stamp := st.clock } :: st.entries,
         device := st.device, clock := st.clock + 1 }, []) := by
  have hfull : cache_is_full st = false := by
    simp only [cache_is_full, decide_eq_false_iff_not]
    omega
  unfold cache_write cache_insert
  rw [hmiss, hfull]
  simp

/-- The initial cache over the all-zero device. -/
def cacheSt0 : CacheSt := buffer_cache_init (fun _ => 0)

/-- Witness for `cache_write_miss_no_device` at a concrete empty cache. -/
theorem cache_write_miss_no_device_witness :
    (cache_lookup cacheSt0 3 = none ∧ cacheSt0.entries.length < CACHE_SIZE) ∧
    cache_write cacheSt0 3 7 =
      ({ entries := { sector := 3, data := 7, dirty := true,
                      stamp := cacheSt0.clock } :: cacheSt0.entries,
         device := cacheSt0.device, clock := cacheSt0.clock + 1 }, []) :=
  ⟨⟨by decide, by decide⟩,
   cache_write_miss_no_device cacheSt0 3 7 (by decide) (by decide)⟩

/-- Every dirty slot's device write-back appears in the flush trace. -/
theorem flush_loop_writes (l : List CEntry) : ∀ (dev : Nat → Nat),
    ∀ e ∈ l, e.dirty = true → DevOp.wr e.sector e.data ∈ (flush_loop l dev).2 := by
  induction l with
  | nil => intro dev e he; simp at he
  | cons a rest ih =>
    intro dev e he hd
    rcases List.mem_cons.mp he with rfl | hm
    · simp [flush_loop, hd]
    · cases ha : a.dirty
      · simp only [flush_loop, ha, Bool.false_eq_true, if_false]
        exact ih _ e hm hd
      · simp only [flush_loop, ha, if_true]
        exact List.mem_cons_of_mem _ (ih _ e hm hd)

/-- Flushing does not touch device sectors no resident slot covers. -/
theorem flush_loop_frame (l : List CEntry) : ∀ (dev : Nat → Nat) (s : Nat),
    (∀ e ∈ l, e.sector ≠ s) → (flush_loop l dev).1 s = dev s := by
  induction l with
  | nil => intro dev s _; rfl
  | cons a rest ih =>
    intro dev s h
    have ha : a.sector ≠ s := h a (List.mem_cons_self a rest)
    cases hd : a.dirty
    · simp only [flush_loop, hd, Bool.false_eq_true, if_false]
      exact ih _ s fun e he => h e (List.mem_cons_of_mem a he)
    · simp only [flush_loop, hd, if_true]
      rw [ih _ s fun e he => h e (List.mem_cons_of_mem a he)]
      exact Function.update_noteq (Ne.symm ha) _ _

/-- After flushing, the device holds the pre-flush logical contents: the
slot data for every resident sector (clean slots already agreed with the
device), the untouched device data elsewhere. -/
theorem flush_loop_contents (l : List CEntry) : ∀ (dev : Nat → Nat) (s : Nat),
    (l.map CEntry.sector).Nodup →
    (∀ e ∈ l, e.dirty = false → e.data = dev e.sector) →
    (flush_loop l dev).1 s =
      (match l.find? (fun e => e.sector == s) with
       | some e => e.data
       | none => dev s) := by
  induction l with
  | nil => intro dev s _ _; rfl
  | cons a rest ih =>
    intro dev s hnd0 hclean
    have hnd : a.sector ∉ rest.map CEntry.sector ∧ (rest.map CEntry.sector).Nodup := by
      simpa using hnd0
    by_cases hs : a.sector = s
    · have hrest : ∀ e ∈ rest, e.sector ≠ s := by
        intro e he hes
        exact hnd.1 (by rw [hs, ← hes]; exact List.mem_map_of_mem CEntry.sector he)
      have hfind : (a :: rest).find? (fun e => e.sector == s) = some a := by
        simp [List.find?_cons, hs]
      rw [hfind]
      cases hd : a.dirty
      · simp only [flush_loop, hd, Bool.false_eq_true, if_false]
        rw [flush_loop_frame rest _ s hrest, ← hs]
        exact (hclean a (List.mem_cons_self a rest) hd).symm
      · simp only [flush_loop, hd, if_true]
        rw [flush_loop_frame rest _ s hrest, ← hs]
        exact Function.update_same _ _ _
    · have hfind : (a :: rest).find? (fun e => e.sector == s) =
          rest.find? (fun e => e.sector == s) := by
        simp [List.find?_cons, hs]
      rw [hfind]
      have hcl : ∀ (dv : Nat → Nat), (∀ e ∈ rest, e.sector ≠ a.sector) →
          (∀ e ∈ a :: rest, e.dirty = false → e.data = dv e.sector) →
          ∀ e ∈ rest, e.dirty = false →
            e.data = Function.update dv a.sector a.data e.sector := by
        intro dv hne hcl0 e he hde
        rw [hcl0 e (List.mem_cons_of_mem a he) hde]
        exact (Function.update_noteq (hne e he) _ _).symm
      have hne : ∀ e ∈ rest, e.sector ≠ a.sector := by
        intro e he hes
        exact hnd.1 (hes ▸ List.mem_map_of_mem CEntry.sector he)
      cases hd : a.dirty
      · simp only [flush_loop, hd, Bool.false_eq_true, if_false]
        exact ih _ s hnd.2
          fun e he hde => hclean e (List.mem_cons_of_mem a he) hde
      · simp only [flush_loop, hd, if_true]
        rw [ih _ s hnd.2 (hcl dev hne hclean)]
        cases hfr : rest.find? (fun e => e.sector == s) with
        | some e => rfl
        | none => exact Function.update_noteq (Ne.symm hs) _ _

/-- C6: flush_cache writes every dirty slot's bytes back to the device and
leaves the cache empty; it is idempotent (a second flush changes nothing
and issues no device operation); and after a flush the device holds, for
every sector, the logical contents the cache exposed before the flush —
i.e. every completed write is reflected.  The uniqueness and write-back
invariants of the cache (one slot per sector; clean slots agree with the
device) are hypotheses. -/
theorem flush_cache_spec (st : CacheSt)
    (hnd : (st.entries.map CEntry.sector).Nodup)
    (hclean : ∀ e ∈ st.entries, e.dirty = false → e.data = st.device e.sector) :
    (flush_cache st).1.entries = [] ∧
    (∀ e ∈ st.entries, e.dirty = true →
      DevOp.wr e.sector e.data ∈ (flush_cache st).2) ∧
    flush_cache (flush_cache st).1 = ((flush_cache st).1, []) ∧
    (∀ s, (flush_cache st).1.device s = cacheContents st s) := by
  refine ⟨rfl, ?_, rfl, ?_⟩
  · intro e he hd
    exact flush_loop_writes st.entries st.device e he hd
  · intro s
    show (flush_loop st.entries st.device).1 s = cacheContents st s
    rw [flush_loop_contents st.entries st.device s hnd hclean]
    rfl

/-- A two-slot cache state satisfying the C6 hypotheses: slot 1 dirty with
data 9, slot 2 clean and agreeing with the device (constant 5). -/
def c6st : CacheSt :=
  { entries := [{ sector := 1, data := 9, dirty := true, stamp := 1 },
                { sector := 2, data := 5, dirty := false, stamp := 0 }],
    device := fun _ => 5, clock := 2 }

/-- Witness for `flush_cache_spec` at a concrete two-slot cache. -/
theorem flush_cache_spec_witness :
    ((c6st.entries.map CEntry.sector).Nodup ∧
      (∀ e ∈ c6st.entries, e.dirty = false → e.data = c6st.device e.sector)) ∧
    ((flush_cache c6st).1.entries = [] ∧
     (∀ e ∈ c6st.entries, e.dirty = true →
       DevOp.wr e.sector e.data ∈ (flush_cache c6st).2) ∧
     flush_cache (flush_cache c6st).1 = ((flush_cache c6st).1, []) ∧
     (∀ s, (flush_cache c6st).1.device s = cacheContents c6st s)) :=
  ⟨⟨by decide, by decide⟩, flush_cache_spec c6st (by decide) (by decide)⟩

/-- A client cache access: block_cache_read or block_cache_write of a
sector (whole-sector form; the partial variants reduce to these). -/
inductive COp where
  | rd (sector : Nat)
  | wr (sector : Nat) (val : Nat)
deriving DecidableEq

/-- The sector an access touches. -/
def COp.sector : COp → Nat
  | COp.rd s => s
  | COp.wr s _ => s

/-- The state part of one cache access. -/
def cache_step (st : CacheSt) : COp → CacheSt
  | COp.rd s => (cache_read st s).1
  | COp.wr s v => (cache_write st s v).1

/-- A session: a sequence of accesses against a freshly initialized
cache over the given device. -/
def cache_run (device : Nat → Nat) (ops : List COp) : CacheSt :=
  ops.foldl cache_step (buffer_cache_init device)

/-- Residency invariant of the cache: the ghost stamps strictly decrease
along the recency list (MRU first), every stamp is below the clock, at
most one slot per sector, and at most CACHE_SIZE resident slots. -/
def CacheInv (st : CacheSt) : Prop :=
  st.entries.Pairwise (fun a b => b.stamp < a.stamp) ∧
  (∀ e ∈ st.entries, e.stamp < st.clock) ∧
  (st.entries.map CEntry.sector).Nodup ∧
  st.entries.length ≤ CACHE_SIZE

theorem lookup_sector_eq {st : CacheSt} {s : Nat} {e : CEntry}
    (h : cache_lookup st s = some e) : e.sector = s := by
  have := List.find?_some h
  simpa using this

theorem lookup_none_sector {st : CacheSt} {s : Nat}
    (h : cache_lookup st s = none) : ∀ x ∈ st.entries, x.sector ≠ s := by
  intro x hx
  have := List.find?_eq_none.mp h x hx
  simpa using this

/-- After erasing the (unique) slot of sector `s`, no remaining slot
covers `s`. -/
theorem eraseP_sector_ne (l : List CEntry) (s : Nat) :
    ∀ (_ : (l.map CEntry.sector).Nodup),
    ∀ x ∈ l.eraseP (fun e => e.sector == s), x.sector ≠ s := by
  induction l with
  | nil => intro _ x hx; simp at hx
  | cons a rest ih =>
    intro hnd0 x hx
    have hnd : a.sector ∉ rest.map CEntry.sector ∧ (rest.map CEntry.sector).Nodup := by
      simpa using hnd0
    cases hp : (a.sector == s : Bool)
    · rw [List.eraseP_cons, hp] at hx
      rcases List.mem_cons.mp hx with rfl | hx
      · simpa using hp
      · exact ih hnd.2 x hx
    · have herase : (a :: rest).eraseP (fun e => e.sector == s) = rest := by
        simp [List.eraseP_cons, hp]
      rw [herase] at hx
      have has : a.sector = s := by simpa using hp
      intro hxs
      exact hnd.1 (by rw [has, ← hxs]; exact List.mem_map_of_mem CEntry.sector hx)

/-- In a strictly stamp-descending list the tail slot's stamp is minimal. -/
theorem getLast_stamp_min (l : List CEntry) :
    ∀ (_ : l.Pairwise (fun a b => b.stamp < a.stamp)) (hne : l ≠ []),
    ∀ x ∈ l, (l.getLast hne).stamp ≤ x.stamp := by
  induction l with
  | nil => intro _ hne; exact absurd rfl hne
  | cons a rest ih =>
    intro hpw hne x hx
    rcases List.pairwise_cons.mp hpw with ⟨ha, hrest⟩
    by_cases hrne : rest = []
    · subst hrne
      have : x = a := by simpa using hx
      subst this
      simp
    · rw [List.getLast_cons hrne]
      rcases List.mem_cons.mp hx with rfl | hx2
      · have hlm : rest.getLast hrne ∈ rest := List.getLast_mem hrne
        exact le_of_lt (ha _ hlm)
      · exact ih hrest hrne x hx2

/-- A hit moves the (unique) slot of `s`, restamped at the clock, to the
MRU position; the invariant is preserved for any device contents. -/
theorem inv_hit (st : CacheSt) (s : Nat) (e0 : CEntry) (dev : Nat → Nat)
    (e' : CEntry) (hinv : CacheInv st) (hl : cache_lookup st s = some e0)
    (hs : e'.sector = s) (hst : e'.stamp = st.clock) :
    CacheInv ⟨e' :: st.entries.eraseP (fun x => x.sector == s), dev,
      st.clock + 1⟩ := by
  obtain ⟨hpw, hclk, hnd, hlen⟩ := hinv
  have hsub : List.Sublist (st.entries.eraseP (fun x => x.sector == s)) st.entries :=
    List.eraseP_sublist _
  unfold CacheInv
  dsimp only
  refine ⟨?_, ?_, ?_, ?_⟩
  · refine List.pairwise_cons.mpr ⟨?_, hpw.sublist hsub⟩
    intro b hb
    rw [hst]
    exact hclk b (List.mem_of_mem_eraseP hb)
  · intro x hx
    rcases List.mem_cons.mp hx with rfl | hx
    · rw [hst]; omega
    · have := hclk x (List.mem_of_mem_eraseP hx); omega
  · refine List.nodup_cons.mpr ⟨?_, hnd.sublist (hsub.map CEntry.sector)⟩
    intro hmem
    obtain ⟨x, hx, hxs⟩ := List.mem_map.mp hmem
    exact eraseP_sector_ne _ s hnd x hx (by rw [hxs, hs])
  · have hl2 : st.entries.find? (fun x => x.sector == s) = some e0 := hl
    have hmem := List.mem_of_find?_eq_some hl2
    have hp := List.find?_some hl2
    have hl2 : (st.entries.eraseP (fun x => x.sector == s)).length =
        st.entries.length - 1 := List.length_eraseP_of_mem hmem hp
    have hpos : 1 ≤ st.entries.length :=
      List.length_pos.mpr (List.ne_nil_of_mem hmem)
    simp only [List.length_cons, hl2]
    omega

/-- A miss below capacity pushes a fresh slot; invariant preserved. -/
theorem inv_miss_notfull (st : CacheSt) (s : Nat) (dev : Nat → Nat)
    (e' : CEntry) (hinv : CacheInv st) (hl : cache_lookup st s = none)
    (hf : cache_is_full st = false) (hs : e'.sector = s)
    (hst : e'.stamp = st.clock) :
    CacheInv ⟨e' :: st.entries, dev, st.clock + 1⟩ := by
  obtain ⟨hpw, hclk, hnd, _⟩ := hinv
  have hcap : st.entries.length < CACHE_SIZE := by
    have := hf
    simp only [cache_is_full, decide_eq_false_iff_not] at this
    omega
  unfold CacheInv
  dsimp only
  refine ⟨?_, ?_, ?_, ?_⟩
  · refine List.pairwise_cons.mpr ⟨?_, hpw⟩
    intro b hb
    rw [hst]
    exact hclk b hb
  · intro x hx
    rcases List.mem_cons.mp hx with rfl | hx
    · rw [hst]; omega
    · have := hclk x hx; omega
  · refine List.nodup_cons.mpr ⟨?_, hnd⟩
    intro hmem
    obtain ⟨x, hx, hxs⟩ := List.mem_map.mp hmem
    exact lookup_none_sector hl x hx (by rw [hxs, hs])
  · simp only [List.length_cons]
    omega

/-- A miss at capacity pushes a fresh slot and drops the LRU tail;
invariant preserved. -/
theorem inv_miss_full (st : CacheSt) (s : Nat) (dev : Nat → Nat)
    (e' : CEntry) (hinv : CacheInv st) (hl : cache_lookup st s = none)
    (hs : e'.sector = s) (hst : e'.stamp = st.clock) :
    CacheInv ⟨e' :: st.entries.dropLast, dev, st.clock + 1⟩ := by
  obtain ⟨hpw, hclk, hnd, hlen⟩ := hinv
  have hsub : List.Sublist st.entries.dropLast st.entries :=
    List.dropLast_sublist _
  unfold CacheInv
  dsimp only
  refine ⟨?_, ?_, ?_, ?_⟩
  · refine List.pairwise_cons.mpr ⟨?_, hpw.sublist hsub⟩
    intro b hb
    rw [hst]
    exact hclk b (hsub.mem hb)
  · intro x hx
    rcases List.mem_cons.mp hx with rfl | hx
    · rw [hst]; omega
    · have := hclk x (hsub.mem hx); omega
  · refine List.nodup_cons.mpr ⟨?_, hnd.sublist (hsub.map CEntry.sector)⟩
    intro hmem
    obtain ⟨x, hx, hxs⟩ := List.mem_map.mp hmem
    exact lookup_none_sector hl x (hsub.mem hx) (by rw [hxs, hs])
  · simp only [List.length_cons, List.length_dropLast, CACHE_SIZE] at *
    omega

/-- CacheInv only constrains the recency list and the clock. -/
theorem cacheInv_of_eq (st1 : CacheSt) (l : List CEntry) (c : Nat)
    (he : st1.entries = l) (hc : st1.clock = c)
    (h : CacheInv ⟨l, st1.device, c⟩) : CacheInv st1 := by
  unfold CacheInv at *
  rw [he, hc]
  exact h

theorem cache_full_le {st : CacheSt} (hf : cache_is_full st = true) :
    CACHE_SIZE ≤ st.entries.length := by
  have := hf
  simp only [cache_is_full, decide_eq_true_eq] at this
  exact this

theorem cache_full_ne_nil {st : CacheSt} (hf : cache_is_full st = true) :
    st.entries ≠ [] := by
  have h64 := cache_full_le hf
  intro h0
  rw [h0] at h64
  simp [CACHE_SIZE] at h64

/-- cache_insert preserves the residency invariant on a miss. -/
theorem cache_insert_inv (st : CacheSt) (s buf : Nat) (ac : Access)
    (hinv : CacheInv st) (hl : cache_lookup st s = none) :
    CacheInv (cache_insert st s buf ac).1 := by
  unfold cache_insert
  cases hf : cache_is_full st
  · simp only [hf, Bool.false_eq_true, if_false]
    exact inv_miss_notfull st s st.device _ hinv hl hf rfl rfl
  · simp only [hf, if_true]
    have hne := cache_full_ne_nil hf
    split
    · dsimp only
      rw [List.dropLast_cons_of_ne_nil hne]
      exact inv_miss_full st s _ _ hinv hl rfl rfl
    · dsimp only
      rw [List.dropLast_cons_of_ne_nil hne]
      exact inv_miss_full st s _ _ hinv hl rfl rfl

/-- Every access preserves the residency invariant. -/
theorem cache_step_inv (st : CacheSt) (op : COp) (hinv : CacheInv st) :
    CacheInv (cache_step st op) := by
  cases op with
  | rd s =>
    show CacheInv (cache_read st s).1
    rcases hl : cache_lookup st s with _ | e
    · simp only [cache_read, hl]
      exact cache_insert_inv st s 0 Access.rd hinv hl
    · simp only [cache_read, hl]
      exact inv_hit st s e st.device { e with stamp := st.clock } hinv hl
        (show e.sector = s from lookup_sector_eq hl) rfl
  | wr s v =>
    show CacheInv (cache_write st s v).1
    rcases hl : cache_lookup st s with _ | e
    · simp only [cache_write, hl]
      exact cache_insert_inv st s v Access.wr hinv hl
    · simp only [cache_write, hl]
      exact inv_hit st s e st.device ⟨s, v, true, st.clock⟩ hinv hl rfl rfl

theorem cache_steps_inv (ops : List COp) :
    ∀ st, CacheInv st → CacheInv (ops.foldl cache_step st) := by
  induction ops with
  | nil => intro st h; exact h
  | cons o rest ih => intro st h; exact ih _ (cache_step_inv st o h)

/-- The invariant holds in every reachable cache state. -/
theorem cache_run_inv (device : Nat → Nat) (ops : List COp) :
    CacheInv (cache_run device ops) := by
  apply cache_steps_inv
  refine ⟨List.Pairwise.nil, ?_, ?_, ?_⟩ <;>
    simp [buffer_cache_init, CACHE_SIZE]

/-- After cache_insert the fresh slot for `s` sits at the MRU position. -/
theorem cache_insert_mru (st : CacheSt) (s buf : Nat) (ac : Access) :
    ((cache_insert st s buf ac).1.entries.head?.map CEntry.sector) = some s := by
  unfold cache_insert
  cases hf : cache_is_full st
  · simp only [hf, Bool.false_eq_true, if_false]
    rfl
  · simp only [hf, if_true]
    have hne := cache_full_ne_nil hf
    split
    · dsimp only
      rw [List.dropLast_cons_of_ne_nil hne]
      rfl
    · dsimp only
      rw [List.dropLast_cons_of_ne_nil hne]
      rfl

/-- After any access the accessed sector occupies the MRU position. -/
theorem cache_step_mru (st : CacheSt) (op : COp) :
    (cache_step st op).entries.head?.map CEntry.sector = some op.sector := by
  cases op with
  | rd s =>
    show ((cache_read st s).1.entries.head?.map CEntry.sector) = some s
    rcases hl : cache_lookup st s with _ | e
    · simp only [cache_read, hl]
      exact cache_insert_mru st s 0 Access.rd
    · have he := lookup_sector_eq hl
      simp [cache_read, hl, he]
  | wr s v =>
    show ((cache_write st s v).1.entries.head?.map CEntry.sector) = some s
    rcases hl : cache_lookup st s with _ | e
    · simp only [cache_write, hl]
      exact cache_insert_mru st s v Access.wr
    · simp [cache_write, hl]

/-- On a miss at capacity, the new recency list is the fresh slot for the
missed sector followed by the old list with its LRU tail dropped. -/
theorem cache_insert_full_entries (st : CacheSt) (s buf : Nat) (ac : Access)
    (hf : cache_is_full st = true) :
    ∃ e', e'.sector = s ∧
      (cache_insert st s buf ac).1.entries = e' :: st.entries.dropLast := by
  have hne := cache_full_ne_nil hf
  unfold cache_insert
  simp only [hf, if_true]
  refine ⟨⟨s, (match ac with | Access.wr => buf | Access.rd => st.device s),
    ac == Access.wr, st.clock⟩, rfl, ?_⟩
  split
  · dsimp only
    rw [List.dropLast_cons_of_ne_nil hne]
  · dsimp only
    rw [List.dropLast_cons_of_ne_nil hne]

theorem cache_step_miss_full_entries (st : CacheSt) (op : COp)
    (hl : cache_lookup st op.sector = none) (hf : cache_is_full st = true) :
    ∃ e', e'.sector = op.sector ∧
      (cache_step st op).entries = e' :: st.entries.dropLast := by
  cases op with
  | rd s =>
    have hl' : cache_lookup st s = none := hl
    show ∃ e', e'.sector = s ∧ (cache_read st s).1.entries = e' :: st.entries.dropLast
    simp only [cache_read, hl']
    exact cache_insert_full_entries st s 0 Access.rd hf
  | wr s v =>
    have hl' : cache_lookup st s = none := hl
    show ∃ e', e'.sector = s ∧ (cache_write st s v).1.entries = e' :: st.entries.dropLast
    simp only [cache_write, hl']
    exact cache_insert_full_entries st s v Access.wr hf

/-- When an access misses at capacity, the evicted slot (the recency
tail) has the minimal ghost stamp among all resident slots — it is the
least recently accessed — and it indeed leaves residency. -/
theorem cache_step_evict_min (st : CacheSt) (op : COp) (hinv : CacheInv st)
    (hl : cache_lookup st op.sector = none) (hf : cache_is_full st = true) :
    ∀ v, st.entries.getLast? = some v →
      v.sector ∉ (cache_step st op).entries.map CEntry.sector ∧
      ∀ x ∈ st.entries, v.stamp ≤ x.stamp := by
  intro v hv
  obtain ⟨hpw, hclk, hnd, hlen⟩ := hinv
  have hne : st.entries ≠ [] := cache_full_ne_nil hf
  have hveq : v = st.entries.getLast hne := by
    rw [List.getLast?_eq_getLast _ hne] at hv
    exact (Option.some_injective _ hv).symm
  have hvm : v ∈ st.entries := by
    rw [hveq]
    exact List.getLast_mem hne
  constructor
  · obtain ⟨e', hes, hent⟩ := cache_step_miss_full_entries st op hl hf
    rw [hent]
    simp only [List.map_cons, List.mem_cons]
    rintro (h1 | h2)
    · exact lookup_none_sector hl v hvm (by rw [h1, hes])
    · have hsplit : st.entries.dropLast ++ [st.entries.getLast hne] = st.entries :=
        List.dropLast_append_getLast hne
      have hmap : st.entries.map CEntry.sector =
          st.entries.dropLast.map CEntry.sector ++ [v.sector] := by
        rw [← hsplit, List.map_append, ← hveq]
        simp
      rw [hmap] at hnd
      have hdisj := (List.nodup_append.mp hnd).2.2
      exact hdisj h2 (List.mem_singleton_self _)
  · intro x hx
    rw [hveq]
    exact getLast_stamp_min st.entries hpw hne x hx

/-- C5: for every sequence of cache reads and writes and every further
access, the accessed sector ends at the MRU position of the recency order,
residency never exceeds CACHE_SIZE (before or after the access), and when
the access misses with the cache at capacity the evicted slot is the one
least recently accessed (minimal ghost stamp) among all resident slots,
and it leaves residency. -/
theorem cache_lru_correct (device : Nat → Nat) (ops : List COp) (op : COp) :
    (cache_step (cache_run device ops) op).entries.head?.map CEntry.sector =
      some op.sector ∧
    (cache_run device ops).entries.length ≤ CACHE_SIZE ∧
    (cache_step (cache_run device ops) op).entries.length ≤ CACHE_SIZE ∧
    (cache_lookup (cache_run device ops) op.sector = none →
      cache_is_full (cache_run device ops) = true →
      ∀ v, (cache_run device ops).entries.getLast? = some v →
        v.sector ∉
          (cache_step (cache_run device ops) op).entries.map CEntry.sector ∧
        ∀ x ∈ (cache_run device ops).entries, v.stamp ≤ x.stamp) := by
  have hinv := cache_run_inv device ops
  have hinv2 := cache_step_inv _ op hinv
  exact ⟨cache_step_mru _ op, hinv.2.2.2, hinv2.2.2.2,
    fun hl hf => cache_step_evict_min _ op hinv hl hf⟩

/-- Sixty-four distinct reads: fills the cache to capacity. -/
def c5ops : List COp := (List.range CACHE_SIZE).map COp.rd

set_option maxRecDepth 100000 in
/-- Witness for `cache_lru_correct`: after reading sectors 0..63 the cache
is full; a read of sector 64 misses, and the evicted slot is the one for
sector 0 — the least recently accessed — with minimal stamp. -/
theorem cache_lru_correct_witness :
    (cache_lookup (cache_run (fun _ => 0) c5ops) (COp.rd 64).sector = none ∧
     cache_is_full (cache_run (fun _ => 0) c5ops) = true ∧
     (cache_run (fun _ => 0) c5ops).entries.getLast? =
       some ⟨0, 0, false, 0⟩) ∧
    ((⟨0, 0, false, 0⟩ : CEntry).sector ∉
        (cache_step (cache_run (fun _ => 0) c5ops)
          (COp.rd 64)).entries.map CEntry.sector ∧
      ∀ x ∈ (cache_run (fun _ => 0) c5ops).entries,
        (⟨0, 0, false, 0⟩ : CEntry).stamp ≤ x.stamp) :=
  ⟨⟨by decide, by decide, by decide⟩,
   ((cache_lru_correct (fun _ => 0) c5ops (COp.rd 64)).2.2.2
     (by decide) (by decide)) ⟨0, 0, false, 0⟩ (by decide)⟩

end Pintos
